import Mathlib

/-!
Verification of the path-addressed tree engine of `cache.py` (unodan/pycache).

Python strings are modelled as `List Char`; Python dicts (string keys,
insertion-ordered, unique keys) as the association-list type `Dict`;
arbitrary leaf values as the `Value` inductive.  Operations that can raise
a Python exception return `Except PyErr _`.
-/

set_option maxHeartbeats 1000000

/-- Python strings, modelled as lists of characters. -/
abbrev PyStr := List Char

/-- Convenience conversion from Lean string literals to `PyStr`. -/
def pys (s : String) : PyStr := s.toList

/-- The Python exceptions the modelled code can raise. -/
inductive PyErr where
  | typeError
  | keyError
  | valueError
  | attributeError
deriving DecidableEq, Repr

/-- First occurrence of `sep` as a contiguous substring of `s`:
`splitFirst sep s = some (pre, post)` means `s = pre ++ sep ++ post` at the
leftmost occurrence, `none` when `sep` does not occur (scanning as Python's
`str.split` does). -/
def splitFirst (sep : PyStr) : PyStr → Option (PyStr × PyStr)
  | [] => none
  | c :: cs =>
    if sep.isPrefixOf (c :: cs) then some ([], (c :: cs).drop sep.length)
    else
      match splitFirst sep cs with
      | some (pre, post) => some (c :: pre, post)
      | none => none

/-- Fuelled worker for `pysplit` (fuel bounds the number of separators). -/
def pysplitF (sep : PyStr) : Nat → PyStr → List PyStr
  | 0, s => [s]
  | fuel + 1, s =>
    match splitFirst sep s with
    | none => [s]
    | some (pre, post) => pre :: pysplitF sep fuel post

/-- Python `s.split(sep)` for a non-empty separator (the empty-separator
case, which raises `ValueError` in Python, is guarded at every use site). -/
def pysplit (sep s : PyStr) : List PyStr :=
  if sep = [] then [s] else pysplitF sep (s.length + 1) s

/-- Python `s.rsplit(sep, 1)`: split once at the rightmost occurrence. -/
def pyrsplit1 (sep s : PyStr) : List PyStr :=
  match splitFirst sep.reverse s.reverse with
  | none => [s]
  | some (pre, post) => [post.reverse, pre.reverse]

/-- Python `s.strip(c)`: remove every leading and trailing occurrence of the
character `c`. -/
def stripChar (c : Char) (s : PyStr) : PyStr :=
  ((s.dropWhile (· == c)).reverse.dropWhile (· == c)).reverse

/-- Python `needle in hay` for strings: contiguous-substring containment. -/
def isSubstr (needle : PyStr) : PyStr → Bool
  | [] => needle.isEmpty
  | c :: cs => needle.isPrefixOf (c :: cs) || isSubstr needle cs

mutual
/-- A Python value stored in the cache: a string, an integer, `None`, or a
nested dict (the Interior Node case).  Strings, integers and `None` are the
Leaf shapes exercised by the specification. -/
inductive Value where
  | vstr : PyStr → Value
  | vint : Int → Value
  | vnone : Value
  | vdict : Dict → Value
deriving DecidableEq

/-- A Python dict with string keys: insertion-ordered association list. -/
inductive Dict where
  | nil : Dict
  | cons : PyStr → Value → Dict → Dict
deriving DecidableEq
end

deriving instance DecidableEq for Except

/-- Python `d[k]` read (as an `Option`): first entry with key `k`. -/
def Dict.find? : Dict → PyStr → Option Value
  | .nil, _ => none
  | .cons k0 v0 rest, k => if k0 = k then some v0 else Dict.find? rest k

/-- Python `k in d` for a dict. -/
def Dict.contains (d : Dict) (k : PyStr) : Bool :=
  (d.find? k).isSome

/-- Python `d[k] = v`: replace the value in place when the key is present,
append a new entry otherwise. -/
def Dict.set : Dict → PyStr → Value → Dict
  | .nil, k, v => .cons k v .nil
  | .cons k0 v0 rest, k, v =>
    if k0 = k then .cons k0 v rest else .cons k0 v0 (Dict.set rest k v)

/-- Python `d.pop(k, default)` restricted to its effect on `d`: drop the
entry with key `k` when present. -/
def Dict.pop : Dict → PyStr → Dict
  | .nil, _ => .nil
  | .cons k0 v0 rest, k => if k0 = k then rest else .cons k0 v0 (Dict.pop rest k)

/-- Python `list(d.keys())`. -/
def Dict.keys : Dict → List PyStr
  | .nil => []
  | .cons k _ rest => k :: Dict.keys rest

/-- Python `len(d)`. -/
def Dict.length : Dict → Nat
  | .nil => 0
  | .cons _ _ rest => Dict.length rest + 1

/-- Concatenation of two dicts (used to state disjoint-key merges). -/
def Dict.append : Dict → Dict → Dict
  | .nil, d2 => d2
  | .cons k v rest, d2 => .cons k v (Dict.append rest d2)

/-- Python `d1.update(**d2)`: assign each entry of `d2` into `d1`, in order. -/
def Dict.updateD : Dict → Dict → Dict
  | d1, .nil => d1
  | d1, .cons k v rest => Dict.updateD (Dict.set d1 k v) rest

/-- `True` exactly on Interior Nodes: Python `isinstance(v, dict)`. -/
def isDict : Value → Bool
  | .vdict _ => true
  | _ => false

/-- Python `key in nodes` for an arbitrary value `nodes`: key membership on
dicts, substring containment on strings, `TypeError` otherwise. -/
def pyContains (key : PyStr) (v : Value) : Except PyErr Bool :=
  match v with
  | .vdict d => .ok (d.contains key)
  | .vstr s => .ok (isSubstr key s)
  | _ => .error .typeError

/-- Python `d[k]` on a dict, raising `KeyError` when absent. -/
def pyIndexD (d : Dict) (k : PyStr) : Except PyErr Value :=
  match d.find? k with
  | some v => .ok v
  | none => .error .keyError

/-- Python `nodes[key]` with a string key: dict lookup, `TypeError` on any
non-dict (string indices must be integers; other leaves unsubscriptable). -/
def pyIndex (v : Value) (key : PyStr) : Except PyErr Value :=
  match v with
  | .vdict d => pyIndexD d key
  | _ => .error .typeError

/-- Worker for `uri2dict`: Python's
`for idx, item in enumerate(uri_reversed): items = {item: items}` tail,
i.e. a left fold wrapping the accumulated dict in one more singleton dict
per remaining (already reversed) segment. -/
def chainUp (acc : Dict) : List PyStr → Dict
  | [] => acc
  | item :: more => chainUp (Dict.cons item (.vdict acc) .nil) more

/-- `uri2dict(uri, v)` from `cache.py`: split `uri` on `/`, reverse, and
build the chain of nested single-key dicts terminating in `v`. -/
def uri2dict (uri : PyStr) (v : Value) : Dict :=
  match (pysplit ['/'] uri).reverse with
  | [] => Dict.nil
  | p :: ps => chainUp (Dict.cons p v Dict.nil) ps

/-- The recursive `walk` inside `Cache.get`, fuelled by the length of the
remaining uri (Python recurses on `uri.split('/', 1)[1]`, which is strictly
shorter).  The fuel-zero branch is unreachable for the fuel used. -/
def getWalkF (default : Value) : Nat → PyStr → Value → Except PyErr Value
  | 0, _, _ => .ok default
  | fuel + 1, u, nodes =>
    match splitFirst ['/'] u with
    | none => do
      let c ← pyContains u nodes
      if c then pyIndex nodes u else .ok default
    | some (key, rest) => do
      let c ← pyContains key nodes
      if c then do
        let nd ← pyIndex nodes key
        getWalkF default fuel rest nd
      else .ok default

/-- `Cache.get(uri, default)`: the whole root for a falsy uri, otherwise the
recursive walk. -/
def cacheGet (root : Dict) (uri : PyStr) (default : Value) : Except PyErr Value :=
  if uri = [] then .ok (.vdict root) else getWalkF default (uri.length + 1) uri (.vdict root)

/-- Outcome of the main `while parts:` loop of `Cache.set`: either the loop
returned after mutating (`done` carries the updated current subtree), or it
exhausted all parts and fell through to the post-loop code with a non-dict
value (`fallback`, handled by re-walking from the root). -/
inductive SetOut where
  | done : Dict → SetOut
  | fallback : SetOut

/-- The post-loop code of `Cache.set` once every part was consumed: a dict
value is shallow-merged into the current subtree (`nodes.update(**data)`),
any other value falls through to the re-walk from the root. -/
def setExhausted (data : Value) (nodes : Dict) : Except PyErr SetOut :=
  match data with
  | .vdict d2 => .ok (.done (Dict.updateD nodes d2))
  | _ => .ok .fallback

/-- The first loop branch of `Cache.set`: the current part exists and holds
a Leaf.  A dict value is first re-expanded over the unconsumed suffix of the
uri (`uri2dict(uri.split(item).pop().strip('/'), data)`, raising
`ValueError` when the part is the empty string); any other value is
assigned directly.  Either way the loop returns. -/
def setLeafOverwrite (uri item : PyStr) (data : Value) (nodes : Dict) :
    Except PyErr SetOut :=
  match data with
  | .vdict _ =>
    if item = [] then .error .valueError
    else .ok (.done (Dict.set nodes item
      (.vdict (uri2dict (stripChar '/' ((pysplit item uri).getLastD [])) data))))
  | _ => .ok (.done (Dict.set nodes item data))

/-- The `while parts:` loop of `Cache.set`, one case per loop branch of the
source.  The loop variable `nodes` is always a dict: the walk only descends
into values that `isinstance(nodes[item], dict)` accepted, so the source's
`isinstance(nodes, dict)` guard in the absent-key branch is always true.
The absent-key branch is `nodes[item] = uri2dict(suffix, data)` when the
unconsumed suffix `uri.split(item).pop()` is non-empty (`ValueError` when
the part is the empty string), else `nodes[item] = data`. -/
def setLoop (uri : PyStr) : List PyStr → Value → Dict → Except PyErr SetOut
  | [], data, nodes => setExhausted data nodes
  | item :: rest, data, nodes =>
    match Dict.find? nodes item with
    | some v =>
      match v with
      | .vdict sub => do
        let out ← setLoop uri rest data sub
        match out with
        | .done sub2 => .ok (.done (Dict.set nodes item (.vdict sub2)))
        | .fallback => .ok .fallback
      | _ => setLeafOverwrite uri item data nodes
    | none =>
      if item = [] then .error .valueError
      else if (pysplit item uri).getLastD [] = [] then
        .ok (.done (Dict.set nodes item data))
      else
        .ok (.done (Dict.set nodes item
          (.vdict (uri2dict (stripChar '/' ((pysplit item uri).getLastD [])) data))))

/-- The post-loop fallback of `Cache.set`: re-walk `uri.split('/')` (the
unstripped uri) from the root, descending through existing entries and
assigning `data` at the final part.  Descending into a missing key raises
`KeyError`; indexing or assigning into a non-dict raises `TypeError`. -/
def setRewalk (nodes : Dict) (parts : List PyStr) (data : Value) : Except PyErr Dict :=
  match parts with
  | [] => .ok nodes
  | item :: rest =>
    match rest with
    | [] => .ok (Dict.set nodes item data)
    | _ :: _ => do
      let sub ← pyIndexD nodes item
      match sub with
      | .vdict d => do
        let d2 ← setRewalk d rest data
        .ok (Dict.set nodes item (.vdict d2))
      | _ => .error .typeError

/-- `Cache.set(uri, data)` (the two-positional-argument form, the one the
class itself uses internally): run the loop on the stripped, split path;
on fall-through with a non-dict value, re-walk the unstripped split. -/
def cacheSet (root : Dict) (uri : PyStr) (data : Value) : Except PyErr Dict := do
  let parts := pysplit ['/'] (stripChar '/' uri)
  let out ← setLoop uri parts data root
  match out with
  | .done d => .ok d
  | .fallback => setRewalk root (pysplit ['/'] uri) data

/-- The `while parts:` loop of `Cache.exists`: test `item in nodes`, then
descend through `nodes[item]` (both steps can raise on Leaf nodes). -/
def existsLoop : List PyStr → Value → Except PyErr Bool
  | [], _ => .ok true
  | item :: rest, nodes => do
    let c ← pyContains item nodes
    if c then do
      let nd ← pyIndex nodes item
      existsLoop rest nd
    else .ok false

/-- `Cache.exists(uri)`. -/
def cacheExists (root : Dict) (uri : PyStr) : Except PyErr Bool :=
  existsLoop (pysplit ['/'] (stripChar '/' uri)) (.vdict root)

/-- The multi-segment branch of `Cache.remove`: resolve `parts[0]` exactly as
`Cache.get` does (same fuelled walk) and apply `node.pop(parts[1], None)` to
the resolved node, rebuilding the tree along the walk (the source mutates the
resolved dict through the reference `get` returned).  A resolved Leaf, or a
missing path (where `get` returns the default `None`), has no `.pop` and
raises `AttributeError`. -/
def popWalkF (p1 : PyStr) : Nat → PyStr → Value → Except PyErr Value
  | 0, _, nodes => .ok nodes
  | fuel + 1, u, nodes =>
    match splitFirst ['/'] u with
    | none => do
      let c ← pyContains u nodes
      if c then do
        let nd ← pyIndex nodes u
        match nd with
        | .vdict d =>
          match nodes with
          | .vdict outer => .ok (.vdict (Dict.set outer u (.vdict (Dict.pop d p1))))
          | _ => .error .typeError
        | _ => .error .attributeError
      else .error .attributeError
    | some (key, rest) => do
      let c ← pyContains key nodes
      if c then do
        let nd ← pyIndex nodes key
        let nd2 ← popWalkF p1 fuel rest nd
        match nodes with
        | .vdict outer => .ok (.vdict (Dict.set outer key nd2))
        | _ => .error .typeError
      else .error .attributeError

/-- `Cache.remove(uri)`: strip slashes, guard with `exists`, then either pop
a single top-level key or pop the final segment from the parent resolved via
`get(parts[0])` (an empty parent path resolves to the root itself, matching
`get`'s falsy-uri branch). -/
def cacheRemove (root : Dict) (uri0 : PyStr) : Except PyErr Dict := do
  let uri := stripChar '/' uri0
  let ex ← cacheExists root uri
  if ex then
    match pyrsplit1 ['/'] uri with
    | [p0] =>
      if Dict.contains root p0 then .ok (Dict.pop root p0) else .error .keyError
    | [p0, p1] =>
      if p0 = [] then .ok (Dict.pop root p1)
      else do
        let r ← popWalkF p1 (p0.length + 1) p0 (.vdict root)
        match r with
        | .vdict d => .ok d
        | _ => .ok root
    | _ => .ok root
  else .ok root

mutual
/-- `recursive_update(d1, d2)` from `Cache.merge`: for each entry of `d2`
in order, recurse when the key maps to dicts on both sides, otherwise
assign `d2`'s value.  (The source mutates `d1[key]` in place in the
recursive case; since the key is then present, this equals replacing the
value with `Dict.set`, which keeps the entry's position.) -/
def recursiveUpdate : Dict → Dict → Dict
  | d1, .nil => d1
  | d1, .cons k v rest =>
    recursiveUpdate (Dict.set d1 k (mergeVal (Dict.find? d1 k) v)) rest

/-- One entry step of `recursive_update`: recurse when the existing value
and the incoming value are both dicts, otherwise take the incoming value. -/
def mergeVal : Option Value → Value → Value
  | some (.vdict s1), .vdict s2 => .vdict (recursiveUpdate s1 s2)
  | _, v => v
end

/-- `Cache.merge(src)`: `recursive_update(self.get(), src.get())` — the
no-path `get` calls return the two roots. -/
def cacheMerge (root other : Dict) : Dict :=
  recursiveUpdate root other

/-- `Cache.__init__` for a single dict argument (the only constructor shape
the claims and `Cache.copy` exercise): a non-empty dict whose first key
contains `/` is re-expanded through `set(key, first_value)` on an empty
root (dropping every other entry), any other dict becomes the root as is. -/
def cacheInit (d : Dict) : Except PyErr Dict :=
  match d with
  | .nil => .ok .nil
  | .cons k v _ => if k.contains '/' then cacheSet .nil k v else .ok d

/-- `Cache.copy()`: `Cache(**deepcopy(self.nodes))` — a deep copy of the
root (identity on these immutable values) fed back through the constructor
as keyword arguments, i.e. as a single dict argument. -/
def cacheCopy (root : Dict) : Except PyErr Dict :=
  cacheInit root

/-- The dict-comprehension filter of `Cache.get_nodes`: keep exactly the
entries whose value is itself a dict. -/
def dictOnly : Dict → Dict
  | .nil => .nil
  | .cons k v rest =>
    match v with
    | .vdict _ => .cons k v (dictOnly rest)
    | _ => dictOnly rest

/-- `Cache.get_nodes(uri)`: resolve `uri` through `get` (default `None`) and
iterate `.items()` of the result; a non-dict result (a Leaf, or the `None`
default of a missing path) has no `.items` and raises `AttributeError`. -/
def cacheGetNodes (root : Dict) (uri : PyStr) : Except PyErr Dict := do
  let node ← cacheGet root uri .vnone
  match node with
  | .vdict d => .ok (dictOnly d)
  | _ => .error .attributeError

mutual
/-- Python `==` on modelled values, as used by `Cache.__eq__`: value
equality on scalars, order-insensitive comparison on dicts. -/
def pyEq : Value → Value → Bool
  | .vstr a, .vstr b => a == b
  | .vint a, .vint b => a == b
  | .vnone, .vnone => true
  | .vdict d1, .vdict d2 => Dict.length d1 == Dict.length d2 && pyEqSub d1 d2
  | _, _ => false

/-- Every entry of the first dict is matched by an equal entry of the
second. -/
def pyEqSub : Dict → Dict → Bool
  | .nil, _ => true
  | .cons k v rest, d2 =>
    (match Dict.find? d2 k with
     | some w => pyEq v w
     | none => false) && pyEqSub rest d2
end

/-- Statement helper: rebuild a slash-delimited uri from its segments
(`joinSegs [a, b, c] = a/b/c`). -/
def joinSegs : List PyStr → PyStr
  | [] => []
  | s :: rest =>
    match rest with
    | [] => s
    | _ :: _ => s ++ '/' :: joinSegs rest

/-- Statement helper: the chain of nested single-key dicts over the given
segments terminating in `v` (the shape `uri2dict` produces). -/
def nestD : List PyStr → Value → Dict
  | [], _ => .nil
  | s :: rest, v =>
    match rest with
    | [] => .cons s v .nil
    | _ :: _ => .cons s (.vdict (nestD rest v)) .nil

/-- The walk of `Cache.get` re-expressed over a pre-split segment list;
`getWalkF` is proved equal to it on `pysplit ['/'] uri`. -/
def getSegs (default : Value) : List PyStr → Value → Except PyErr Value
  | [], _ => .ok default
  | k :: rest, nodes => do
    let c ← pyContains k nodes
    if c then do
      let nd ← pyIndex nodes k
      match rest with
      | [] => .ok nd
      | _ :: _ => getSegs default rest nd
    else .ok default

/-- Modelled from the spec's words for `get` (for the refinement statement
of C4): descend segment by segment; if any segment is absent, the default;
otherwise the node found at full resolution. -/
def specResolve (default : Value) : Value → List PyStr → Value
  | v, [] => v
  | .vdict d, s :: rest =>
    (match Dict.find? d s with
     | some v => specResolve default v rest
     | none => default)
  | _, _ :: _ => default

/-- The descent from `v` along the given segments only ever enters Interior
Nodes (a Leaf may be reached, but only with no segments left to consume). -/
def dictDescent : Value → List PyStr → Bool
  | _, [] => true
  | .vdict d, s :: rest =>
    (match Dict.find? d s with
     | some v => dictDescent v rest
     | none => true)
  | _, _ :: _ => false

/-! ### Lemmas: Python string helpers -/

theorem splitFirst_post_length {sep : PyStr} (hsep : sep ≠ []) :
    ∀ {s pre post : PyStr}, splitFirst sep s = some (pre, post) → post.length < s.length := by
  intro s
  induction s with
  | nil => intro pre post h; simp [splitFirst] at h
  | cons c cs ih =>
    intro pre post h
    rw [splitFirst] at h
    split at h
    · have hlen : 1 ≤ sep.length := by
        cases sep
        · exact absurd rfl hsep
        · simp
      simp only [Option.some.injEq, Prod.mk.injEq] at h
      obtain ⟨-, h2⟩ := h
      subst h2
      simp only [List.length_drop, List.length_cons]
      omega
    · cases hrec : splitFirst sep cs with
      | none => rw [hrec] at h; exact absurd h (by simp)
      | some pr =>
        obtain ⟨pre1, post1⟩ := pr
        rw [hrec] at h
        simp only [Option.some.injEq, Prod.mk.injEq] at h
        obtain ⟨-, h2⟩ := h
        subst h2
        have := ih hrec
        simp only [List.length_cons]
        omega

theorem pysplitF_fuelIrrel {sep : PyStr} (hsep : sep ≠ []) :
    ∀ (f1 f2 : Nat) (s : PyStr), s.length < f1 → s.length < f2 →
      pysplitF sep f1 s = pysplitF sep f2 s := by
  intro f1
  induction f1 with
  | zero => intro f2 s h1 _; omega
  | succ n ih =>
    intro f2 s h1 h2
    cases f2 with
    | zero => omega
    | succ m =>
      rw [pysplitF, pysplitF]
      cases hsf : splitFirst sep s with
      | none => rfl
      | some pr =>
        obtain ⟨pre, post⟩ := pr
        have hlt := splitFirst_post_length hsep hsf
        show pre :: pysplitF sep n post = pre :: pysplitF sep m post
        rw [ih m post (by omega) (by omega)]

theorem pysplit_unfold {sep : PyStr} (hsep : sep ≠ []) (s : PyStr) :
    pysplit sep s =
      (match splitFirst sep s with
       | none => [s]
       | some (pre, post) => pre :: pysplit sep post) := by
  rw [pysplit, if_neg hsep]
  rw [pysplitF]
  cases hsf : splitFirst sep s with
  | none => rfl
  | some pr =>
    obtain ⟨pre, post⟩ := pr
    have hlt := splitFirst_post_length hsep hsf
    show pre :: pysplitF sep s.length post = pre :: pysplit sep post
    rw [pysplit, if_neg hsep]
    rw [pysplitF_fuelIrrel hsep s.length (post.length + 1) post (by omega) (by omega)]

theorem pysplit_ne_nil (sep s : PyStr) : pysplit sep s ≠ [] := by
  rw [pysplit]
  split
  · simp
  · rw [pysplitF]
    cases splitFirst sep s with
    | none => simp
    | some pr => obtain ⟨pre, post⟩ := pr; simp

theorem splitFirst_single_none {c : Char} :
    ∀ {s : PyStr}, c ∉ s → splitFirst [c] s = none := by
  intro s
  induction s with
  | nil => intro _; rfl
  | cons a t ih =>
    intro h
    simp only [List.mem_cons, not_or] at h
    rw [splitFirst]
    have hpre : (([c] : PyStr).isPrefixOf (a :: t)) = false := by
      simp only [List.isPrefixOf, Bool.and_true, beq_eq_false_iff_ne]
      exact h.1
    rw [hpre]
    simp only [Bool.false_eq_true, if_false]
    rw [ih h.2]

theorem splitFirst_append_single {c : Char} :
    ∀ {s : PyStr} (t : PyStr), c ∉ s → splitFirst [c] (s ++ c :: t) = some (s, t) := by
  intro s
  induction s with
  | nil =>
    intro t _
    rw [List.nil_append, splitFirst]
    have hpre : (([c] : PyStr).isPrefixOf (c :: t)) = true := by
      simp [List.isPrefixOf]
    rw [hpre]
    simp
  | cons a u ih =>
    intro t h
    simp only [List.mem_cons, not_or] at h
    rw [List.cons_append, splitFirst]
    have hpre : (([c] : PyStr).isPrefixOf (a :: (u ++ c :: t))) = false := by
      simp only [List.isPrefixOf, Bool.and_true, beq_eq_false_iff_ne]
      exact h.1
    rw [hpre]
    simp only [Bool.false_eq_true, if_false]
    rw [ih t h.2]

theorem pysplit_joinSegs :
    ∀ {segs : List PyStr}, segs ≠ [] → (∀ x ∈ segs, x ≠ [] ∧ '/' ∉ x) →
      pysplit ['/'] (joinSegs segs) = segs := by
  intro segs
  induction segs with
  | nil => intro h _; exact absurd rfl h
  | cons s rest ih =>
    intro _ hgood
    cases rest with
    | nil =>
      rw [joinSegs, pysplit_unfold (by simp), splitFirst_single_none (hgood s (by simp)).2]
    | cons s2 rest2 =>
      rw [joinSegs]
      show pysplit ['/'] (s ++ '/' :: joinSegs (s2 :: rest2)) = s :: s2 :: rest2
      rw [pysplit_unfold (by simp),
        splitFirst_append_single (joinSegs (s2 :: rest2)) (hgood s (by simp)).2]
      show s :: pysplit ['/'] (joinSegs (s2 :: rest2)) = s :: s2 :: rest2
      rw [ih (by simp) (fun x hx => hgood x (by simp [hx]))]

theorem dropWhile_eq_self_of_head {c a : Char} {s u : PyStr}
    (hs : s = a :: u) (ha : (a == c) = false) :
    s.dropWhile (· == c) = s := by
  subst hs
  rw [List.dropWhile_cons, ha]
  simp

theorem joinSegs_head_ne {segs : List PyStr} (h1 : segs ≠ [])
    (h2 : ∀ x ∈ segs, x ≠ [] ∧ '/' ∉ x) :
    ∃ a u, joinSegs segs = a :: u ∧ (a == '/') = false := by
  obtain ⟨s, rest, rfl⟩ := List.exists_cons_of_ne_nil h1
  obtain ⟨hne, hsl⟩ := h2 s (by simp)
  obtain ⟨a, t, rfl⟩ : ∃ a t, s = a :: t := by
    cases s
    · exact absurd rfl hne
    · exact ⟨_, _, rfl⟩
  have ha : (a == '/') = false := by
    rw [beq_eq_false_iff_ne]
    intro he
    exact hsl (by rw [← he]; simp)
  cases rest with
  | nil => exact ⟨a, t, rfl, ha⟩
  | cons s2 r2 => exact ⟨a, t ++ '/' :: joinSegs (s2 :: r2), rfl, ha⟩

theorem joinSegs_reverse_head_ne :
    ∀ {segs : List PyStr}, segs ≠ [] → (∀ x ∈ segs, x ≠ [] ∧ '/' ∉ x) →
      ∃ a u, (joinSegs segs).reverse = a :: u ∧ (a == '/') = false := by
  intro segs
  induction segs with
  | nil => intro h _; exact absurd rfl h
  | cons s rest ih =>
    intro _ hgood
    obtain ⟨hne, hsl⟩ := hgood s (by simp)
    cases rest with
    | nil =>
      cases hrev : s.reverse with
      | nil => exact absurd (by simpa using congrArg List.reverse hrev) hne
      | cons a u =>
        refine ⟨a, u, hrev, ?_⟩
        rw [beq_eq_false_iff_ne]
        intro he
        have hmem : a ∈ s := by
          have : a ∈ s.reverse := by rw [hrev]; simp
          simpa using this
        exact hsl (he ▸ hmem)
    | cons s2 r2 =>
      obtain ⟨a, u, hrev, hane⟩ := ih (by simp) (fun x hx => hgood x (by simp [hx]))
      refine ⟨a, u ++ '/' :: s.reverse, ?_, hane⟩
      show (s ++ '/' :: joinSegs (s2 :: r2)).reverse = a :: (u ++ '/' :: s.reverse)
      rw [List.reverse_append, List.reverse_cons, hrev]
      simp

theorem stripChar_joinSegs {segs : List PyStr} (h1 : segs ≠ [])
    (h2 : ∀ x ∈ segs, x ≠ [] ∧ '/' ∉ x) :
    stripChar '/' (joinSegs segs) = joinSegs segs := by
  obtain ⟨a, u, hj, ha⟩ := joinSegs_head_ne h1 h2
  obtain ⟨b, w, hr, hb⟩ := joinSegs_reverse_head_ne h1 h2
  rw [stripChar, dropWhile_eq_self_of_head hj ha, dropWhile_eq_self_of_head hr hb,
    List.reverse_reverse]

/-! ### Lemmas: Except bind reduction -/

@[simp] theorem exceptBind_ok {α β : Type} (a : α) (f : α → Except PyErr β) :
    (Except.ok a >>= f) = f a := rfl

@[simp] theorem exceptBind_error {α β : Type} (e : PyErr) (f : α → Except PyErr β) :
    ((Except.error e : Except PyErr α) >>= f) = Except.error e := rfl

/-! ### Lemmas: uri2dict builds the nested chain -/

theorem chainUp_append :
    ∀ (ps : List PyStr) (acc : Dict) (s : PyStr),
      chainUp acc (ps ++ [s]) = Dict.cons s (.vdict (chainUp acc ps)) .nil := by
  intro ps
  induction ps with
  | nil => intro acc s; rfl
  | cons p pt ih => intro acc s; exact ih (Dict.cons p (.vdict acc) .nil) s

theorem revBuild_eq_nestD (v : Value) :
    ∀ {segs : List PyStr}, segs ≠ [] →
      (match segs.reverse with
       | [] => Dict.nil
       | p :: ps => chainUp (Dict.cons p v Dict.nil) ps) = nestD segs v := by
  intro segs
  induction segs with
  | nil => intro h; exact absurd rfl h
  | cons s rest ih =>
    intro _
    cases rest with
    | nil => rfl
    | cons s2 r2 =>
      cases hrev : (s2 :: r2).reverse with
      | nil => exact absurd hrev (by simp)
      | cons p ps =>
        have h1 : (s :: s2 :: r2).reverse = p :: (ps ++ [s]) := by
          rw [List.reverse_cons, hrev]
          rfl
        rw [h1]
        show chainUp (Dict.cons p v Dict.nil) (ps ++ [s]) = nestD (s :: s2 :: r2) v
        rw [chainUp_append]
        have h2 := ih (by simp)
        rw [hrev] at h2
        rw [show chainUp (Dict.cons p v Dict.nil) ps = nestD (s2 :: r2) v from h2]
        rfl

theorem uri2dict_eq_nestD {T : PyStr} {segs : List PyStr} (h : pysplit ['/'] T = segs)
    (hne : segs ≠ []) (v : Value) : uri2dict T v = nestD segs v := by
  rw [uri2dict, h]
  exact revBuild_eq_nestD v hne

/-! ### Lemmas: the get walk over pre-split segments -/

theorem getWalkF_eq_getSegs (default : Value) :
    ∀ (fuel : Nat) (u : PyStr) (nodes : Value), u.length < fuel →
      getWalkF default fuel u nodes = getSegs default (pysplit ['/'] u) nodes := by
  intro fuel
  induction fuel with
  | zero => intro u nodes h; omega
  | succ n ih =>
    intro u nodes h
    rw [getWalkF]
    cases hsf : splitFirst ['/'] u with
    | none =>
      rw [pysplit_unfold (by simp), hsf]
      show (do
        let c ← pyContains u nodes
        if c then pyIndex nodes u else .ok default) = getSegs default [u] nodes
      rw [getSegs]
      cases hc : pyContains u nodes with
      | error e => simp [hc]
      | ok b =>
        cases b with
        | false => simp [hc]
        | true =>
          simp only [hc, exceptBind_ok, if_true]
          cases hi : pyIndex nodes u with
          | error e => simp [hi]
          | ok w => simp [hi]
    | some pr =>
      obtain ⟨key, rest⟩ := pr
      rw [pysplit_unfold (by simp), hsf]
      have hlt := splitFirst_post_length (by simp) hsf
      obtain ⟨l0, lt, hps⟩ : ∃ l0 lt, pysplit ['/'] rest = l0 :: lt := by
        cases hp : pysplit ['/'] rest with
        | nil => exact absurd hp (pysplit_ne_nil _ _)
        | cons a b => exact ⟨a, b, rfl⟩
      show (do
        let c ← pyContains key nodes
        if c then do
          let nd ← pyIndex nodes key
          getWalkF default n rest nd
        else .ok default) = getSegs default (key :: pysplit ['/'] rest) nodes
      rw [hps, getSegs]
      cases hc : pyContains key nodes with
      | error e => simp [hc]
      | ok b =>
        cases b with
        | false => simp [hc]
        | true =>
          simp only [hc, exceptBind_ok, if_true]
          cases hi : pyIndex nodes key with
          | error e => simp [hi]
          | ok w =>
            simp only [hi, exceptBind_ok]
            rw [ih rest w (by omega), hps]

theorem getSegs_nestD (default v : Value) :
    ∀ {segs : List PyStr}, segs ≠ [] →
      getSegs default segs (.vdict (nestD segs v)) = .ok v := by
  intro segs
  induction segs with
  | nil => intro h; exact absurd rfl h
  | cons s rest ih =>
    intro _
    cases rest with
    | nil =>
      rw [getSegs]
      simp [nestD, pyContains, Dict.contains, Dict.find?, pyIndex, pyIndexD]
    | cons s2 r2 =>
      rw [getSegs]
      simp only [nestD, pyContains, Dict.contains, Dict.find?, if_pos rfl,
        Option.isSome_some, exceptBind_ok, if_true, pyIndex, pyIndexD]
      exact ih (by simp)

theorem existsLoop_take_nestD (v : Value) :
    ∀ (segs : List PyStr) (i : Nat), 1 ≤ i → i ≤ segs.length →
      existsLoop (segs.take i) (.vdict (nestD segs v)) = .ok true := by
  intro segs
  induction segs with
  | nil => intro i h1 h2; simp at h2; omega
  | cons s rest ih =>
    intro i h1 h2
    cases i with
    | zero => omega
    | succ j =>
      rw [List.take_succ_cons]
      cases rest with
      | nil =>
        have hj : j = 0 := by simp at h2; omega
        subst hj
        rw [existsLoop]
        simp [nestD, pyContains, Dict.contains, Dict.find?, pyIndex, pyIndexD, existsLoop]
      | cons s2 r2 =>
        rw [existsLoop]
        cases j with
        | zero =>
          simp [nestD, pyContains, Dict.contains, Dict.find?, pyIndex, pyIndexD, existsLoop]
        | succ jj =>
          simp only [nestD, pyContains, Dict.contains, Dict.find?, if_pos rfl,
            Option.isSome_some, exceptBind_ok, if_true, pyIndex, pyIndexD]
          exact ih (jj + 1) (by omega) (by simp at h2 ⊢; omega)

theorem getSegs_specResolve (default : Value) :
    ∀ (segs : List PyStr) (v : Value), segs ≠ [] → dictDescent v segs = true →
      getSegs default segs v = .ok (specResolve default v segs) := by
  intro segs
  induction segs with
  | nil => intro v h _; exact absurd rfl h
  | cons s rest ih =>
    intro v _ hdd
    cases v with
    | vdict d =>
      rw [getSegs]
      cases hf : Dict.find? d s with
      | none =>
        simp [pyContains, Dict.contains, hf, specResolve]
      | some w =>
        simp only [dictDescent, hf] at hdd
        cases rest with
        | nil =>
          simp [pyContains, Dict.contains, hf, pyIndex, pyIndexD, specResolve]
        | cons s2 r2 =>
          simp only [pyContains, Dict.contains, hf, Option.isSome_some, exceptBind_ok,
            if_true, pyIndex, pyIndexD, specResolve]
          exact ih w (by simp) hdd
    | vstr s1 => simp [dictDescent] at hdd
    | vint n => simp [dictDescent] at hdd
    | vnone => simp [dictDescent] at hdd

/-! ### Lemmas: dict operations -/

/-- Structural induction for `Dict` alone (its mutual recursor with `Value`
is inconvenient for the `induction` tactic). -/
@[induction_eliminator]
theorem dictInd {motive : Dict → Prop} (hnil : motive .nil)
    (hcons : ∀ k v rest, motive rest → motive (.cons k v rest)) : ∀ d, motive d
  | .nil => hnil
  | .cons k v rest => hcons k v rest (dictInd hnil hcons rest)

theorem Dict.find?_set_self : ∀ (d : Dict) (k : PyStr) (v : Value),
    Dict.find? (Dict.set d k v) k = some v := by
  intro d
  induction d with
  | hnil => intro k v; simp [Dict.set, Dict.find?]
  | hcons k0 v0 rest ih =>
    intro k v
    rw [Dict.set]
    by_cases hk : k0 = k
    · rw [if_pos hk, Dict.find?, if_pos hk]
    · rw [if_neg hk, Dict.find?, if_neg hk]
      exact ih k v

theorem Dict.find?_set_ne : ∀ (d : Dict) (k0 k : PyStr) (v : Value), k0 ≠ k →
    Dict.find? (Dict.set d k0 v) k = Dict.find? d k := by
  intro d
  induction d with
  | hnil => intro k0 k v h; simp [Dict.set, Dict.find?, h]
  | hcons k1 v1 rest ih =>
    intro k0 k v h
    rw [Dict.set]
    by_cases hk : k1 = k0
    · subst hk
      rw [if_pos rfl, Dict.find?, Dict.find?, if_neg h, if_neg h]
    · rw [if_neg hk, Dict.find?, Dict.find?]
      by_cases hk2 : k1 = k
      · rw [if_pos hk2, if_pos hk2]
      · rw [if_neg hk2, if_neg hk2]
        exact ih k0 k v h

theorem Dict.find?_eq_none_of_not_mem : ∀ (d : Dict) (k : PyStr), k ∉ Dict.keys d →
    Dict.find? d k = none := by
  intro d
  induction d with
  | hnil => intro k _; rfl
  | hcons k0 v0 rest ih =>
    intro k h
    simp only [Dict.keys, List.mem_cons, not_or] at h
    rw [Dict.find?, if_neg (fun he => h.1 he.symm)]
    exact ih k h.2

theorem Dict.append_nil : ∀ (d : Dict), Dict.append d .nil = d := by
  intro d
  induction d with
  | hnil => rfl
  | hcons k v rest ih => rw [Dict.append, ih]

theorem Dict.append_assoc : ∀ (d1 d2 d3 : Dict),
    Dict.append (Dict.append d1 d2) d3 = Dict.append d1 (Dict.append d2 d3) := by
  intro d1
  induction d1 with
  | hnil => intro d2 d3; rfl
  | hcons k v rest ih => intro d2 d3; rw [Dict.append, Dict.append, Dict.append, ih]

theorem Dict.set_eq_append_of_not_mem : ∀ (d : Dict) (k : PyStr) (v : Value),
    k ∉ Dict.keys d → Dict.set d k v = Dict.append d (.cons k v .nil) := by
  intro d
  induction d with
  | hnil => intro k v _; rfl
  | hcons k0 v0 rest ih =>
    intro k v h
    simp only [Dict.keys, List.mem_cons, not_or] at h
    rw [Dict.set, if_neg (fun he => h.1 he.symm), Dict.append, ih k v h.2]

theorem Dict.keys_append : ∀ (d1 d2 : Dict),
    Dict.keys (Dict.append d1 d2) = Dict.keys d1 ++ Dict.keys d2 := by
  intro d1
  induction d1 with
  | hnil => intro d2; rfl
  | hcons k v rest ih => intro d2; rw [Dict.append, Dict.keys, Dict.keys, ih, List.cons_append]

/-! ### Lemmas: recursive merge -/

theorem recursiveUpdate_nil (d1 : Dict) : recursiveUpdate d1 .nil = d1 := by
  rw [recursiveUpdate]

theorem recursiveUpdate_cons (d1 : Dict) (k0 : PyStr) (v0 : Value) (rest : Dict) :
    recursiveUpdate d1 (.cons k0 v0 rest) =
      recursiveUpdate (Dict.set d1 k0 (mergeVal (Dict.find? d1 k0) v0)) rest := by
  rw [recursiveUpdate]

theorem recursiveUpdate_find? :
    ∀ (d2 : Dict), (Dict.keys d2).Nodup → ∀ (d1 : Dict) (k : PyStr),
      Dict.find? (recursiveUpdate d1 d2) k =
        (match Dict.find? d2 k with
         | some v => some (mergeVal (Dict.find? d1 k) v)
         | none => Dict.find? d1 k) := by
  intro d2
  induction d2 with
  | hnil =>
    intro _ d1 k
    rw [recursiveUpdate_nil]
    rw [show Dict.find? Dict.nil k = (none : Option Value) from by rw [Dict.find?]]
  | hcons k0 v0 rest ih =>
    intro hnd d1 k
    rw [Dict.keys, List.nodup_cons] at hnd
    obtain ⟨hk0, hndr⟩ := hnd
    rw [recursiveUpdate_cons, ih hndr]
    by_cases hkk : k = k0
    · subst hkk
      rw [Dict.find?_eq_none_of_not_mem rest k hk0, Dict.find?_set_self]
      rw [show Dict.find? (Dict.cons k v0 rest) k = some v0 from by
        rw [Dict.find?, if_pos rfl]]
    · rw [Dict.find?_set_ne d1 k0 k _ (fun he => hkk he.symm)]
      rw [show Dict.find? (Dict.cons k0 v0 rest) k = Dict.find? rest k from by
        rw [Dict.find?, if_neg (fun he => hkk he.symm)]]

theorem mergeVal_none (v : Value) : mergeVal none v = v := by
  cases v <;> rfl

theorem recursiveUpdate_disjoint :
    ∀ (d2 : Dict), (Dict.keys d2).Nodup → ∀ (d1 : Dict),
      (∀ k, k ∈ Dict.keys d1 → k ∉ Dict.keys d2) →
      recursiveUpdate d1 d2 = Dict.append d1 d2 := by
  intro d2
  induction d2 with
  | hnil => intro _ d1 _; rw [recursiveUpdate_nil, Dict.append_nil]
  | hcons k0 v0 rest ih =>
    intro hnd d1 hdisj
    rw [Dict.keys, List.nodup_cons] at hnd
    obtain ⟨hk0, hndr⟩ := hnd
    have hk0d1 : k0 ∉ Dict.keys d1 := fun hmem => hdisj k0 hmem (by rw [Dict.keys]; simp)
    have hf : Dict.find? d1 k0 = none := Dict.find?_eq_none_of_not_mem d1 k0 hk0d1
    rw [recursiveUpdate_cons, hf, mergeVal_none]
    rw [Dict.set_eq_append_of_not_mem d1 k0 v0 hk0d1]
    rw [ih hndr (Dict.append d1 (.cons k0 v0 .nil)) ?_]
    · rw [Dict.append_assoc]
      rfl
    · intro k hmem
      rw [Dict.keys_append, List.mem_append] at hmem
      cases hmem with
      | inl h1 =>
        have := hdisj k h1
        rw [Dict.keys, List.mem_cons, not_or] at this
        exact this.2
      | inr h2 =>
        simp [Dict.keys] at h2
        subst h2
        exact hk0

/-! ### Lemmas: further helpers for the claim theorems -/

theorem pysplit_single {s : PyStr} (h : '/' ∉ s) : pysplit ['/'] s = [s] := by
  rw [pysplit_unfold (by simp), splitFirst_single_none h]

theorem stripChar_slash_cons {segs : List PyStr} (h1 : segs ≠ [])
    (h2 : ∀ x ∈ segs, x ≠ [] ∧ '/' ∉ x) :
    stripChar '/' ('/' :: joinSegs segs) = joinSegs segs := by
  obtain ⟨a, u, hj, ha⟩ := joinSegs_head_ne h1 h2
  obtain ⟨b, w, hr, hb⟩ := joinSegs_reverse_head_ne h1 h2
  rw [stripChar]
  rw [show ('/' :: joinSegs segs).dropWhile (· == '/') =
      (joinSegs segs).dropWhile (· == '/') from by rw [List.dropWhile_cons]; simp]
  rw [dropWhile_eq_self_of_head hj ha, dropWhile_eq_self_of_head hr hb, List.reverse_reverse]

theorem dictOnly_find? :
    ∀ (d : Dict), (Dict.keys d).Nodup → ∀ (k : PyStr),
      Dict.find? (dictOnly d) k =
        (match Dict.find? d k with
         | some (.vdict s) => some (.vdict s)
         | _ => none) := by
  intro d
  induction d with
  | hnil => intro _ k; rw [dictOnly]; rw [show Dict.find? Dict.nil k = (none : Option Value) from by
      rw [Dict.find?]]
  | hcons k0 v0 rest ih =>
    intro hnd k
    rw [Dict.keys, List.nodup_cons] at hnd
    obtain ⟨hk0, hndr⟩ := hnd
    by_cases hkk : k0 = k
    · subst hkk
      cases v0 with
      | vdict s =>
        show Dict.find? (Dict.cons k0 (.vdict s) (dictOnly rest)) k0 = _
        rw [Dict.find?, if_pos rfl, Dict.find?, if_pos rfl]
      | vstr s =>
        show Dict.find? (dictOnly rest) k0 = _
        rw [ih hndr k0, Dict.find?_eq_none_of_not_mem rest k0 hk0, Dict.find?, if_pos rfl]
      | vint n =>
        show Dict.find? (dictOnly rest) k0 = _
        rw [ih hndr k0, Dict.find?_eq_none_of_not_mem rest k0 hk0, Dict.find?, if_pos rfl]
      | vnone =>
        show Dict.find? (dictOnly rest) k0 = _
        rw [ih hndr k0, Dict.find?_eq_none_of_not_mem rest k0 hk0, Dict.find?, if_pos rfl]
    · cases v0 with
      | vdict s =>
        show Dict.find? (Dict.cons k0 (.vdict s) (dictOnly rest)) k = _
        rw [Dict.find?, if_neg hkk, ih hndr k, Dict.find?, if_neg hkk]
      | vstr s =>
        show Dict.find? (dictOnly rest) k = _
        rw [ih hndr k, Dict.find?, if_neg hkk]
      | vint n =>
        show Dict.find? (dictOnly rest) k = _
        rw [ih hndr k, Dict.find?, if_neg hkk]
      | vnone =>
        show Dict.find? (dictOnly rest) k = _
        rw [ih hndr k, Dict.find?, if_neg hkk]

theorem Dict.find?_nil (k : PyStr) : Dict.find? Dict.nil k = none := by
  rw [Dict.find?]

theorem cacheSet_eq (root : Dict) (uri : PyStr) (data : Value) :
    cacheSet root uri data =
      (setLoop uri (pysplit ['/'] (stripChar '/' uri)) data root) >>= fun out =>
        match out with
        | .done d => .ok d
        | .fallback => setRewalk root (pysplit ['/'] uri) data := rfl

/-! ### Claim theorems -/

/-- C3 (code bug, evaluation at the failing input): on the tree `{a: 1}`,
`exists("a/b")` raises `TypeError` (the membership test `"b" in 1` on the
int Leaf is not iterable) instead of returning false, and `remove("a/b")`
propagates the same `TypeError` from its `exists` guard instead of being a
no-op. -/
theorem c3_leaf_probe_raises :
    cacheExists (Dict.cons (pys "a") (.vint 1) Dict.nil) (pys "a/b") = .error .typeError ∧
    cacheRemove (Dict.cons (pys "a") (.vint 1) Dict.nil) (pys "a/b") = .error .typeError :=
  ⟨by decide, by decide⟩

/-- C5 (code bug, evaluation at the failing input): on `{a: {b: 1}}`,
`set("a", 5)` does replace the whole subtree via the fallback re-walk
(root becomes `{a: 5}` and `get("a") == 5`), exactly as claimed — but the
claim's other conjunct fails: `exists("a/b")` then raises `TypeError`
(membership test on the int Leaf `5`) rather than returning false. -/
theorem c5_overwrite_subtree :
    cacheSet (Dict.cons (pys "a") (.vdict (Dict.cons (pys "b") (.vint 1) Dict.nil)) Dict.nil)
        (pys "a") (.vint 5) = .ok (Dict.cons (pys "a") (.vint 5) Dict.nil) ∧
    cacheGet (Dict.cons (pys "a") (.vint 5) Dict.nil) (pys "a") .vnone = .ok (.vint 5) ∧
    cacheExists (Dict.cons (pys "a") (.vint 5) Dict.nil) (pys "a/b") = .error .typeError :=
  ⟨by decide, by decide, by decide⟩

/-- C9: constructing from the single mapping `{"db/host": "localhost"}`
expands the slash key as a path/value pair: the root becomes
`{db: {host: "localhost"}}`, `get("db")` returns that Interior Node, and
`get("db/host")` returns `"localhost"`. -/
theorem c9_construct_expand :
    cacheInit (Dict.cons (pys "db/host") (.vstr (pys "localhost")) Dict.nil) =
      .ok (Dict.cons (pys "db")
        (.vdict (Dict.cons (pys "host") (.vstr (pys "localhost")) Dict.nil)) Dict.nil) ∧
    cacheGet (Dict.cons (pys "db")
        (.vdict (Dict.cons (pys "host") (.vstr (pys "localhost")) Dict.nil)) Dict.nil)
      (pys "db") .vnone =
      .ok (.vdict (Dict.cons (pys "host") (.vstr (pys "localhost")) Dict.nil)) ∧
    cacheGet (Dict.cons (pys "db")
        (.vdict (Dict.cons (pys "host") (.vstr (pys "localhost")) Dict.nil)) Dict.nil)
      (pys "db/host") .vnone = .ok (.vstr (pys "localhost")) :=
  ⟨by decide, by decide, by decide⟩

/-- C1 (counterexample): for `P = "a/ab"` and `V = 5` on an empty tree the
claim fails: `set` splits the uri on the first segment `"a"` as a plain
substring, which also matches the `a` inside `ab`, so the tree built is
`{a: {b: 5}}`; `get("a/ab")` then returns the default (not `5`) and
`exists("a/ab")` is false. -/
theorem c1_counterexample :
    cacheSet Dict.nil (pys "a/ab") (.vint 5) =
      .ok (Dict.cons (pys "a") (.vdict (Dict.cons (pys "b") (.vint 5) Dict.nil)) Dict.nil) ∧
    cacheGet (Dict.cons (pys "a") (.vdict (Dict.cons (pys "b") (.vint 5) Dict.nil)) Dict.nil)
      (pys "a/ab") .vnone = .ok .vnone ∧
    cacheGet (Dict.cons (pys "a") (.vdict (Dict.cons (pys "b") (.vint 5) Dict.nil)) Dict.nil)
      (pys "a/ab") .vnone ≠ .ok (.vint 5) ∧
    cacheExists (Dict.cons (pys "a") (.vdict (Dict.cons (pys "b") (.vint 5) Dict.nil)) Dict.nil)
      (pys "a/ab") = .ok false :=
  ⟨by decide, by decide, by decide, by decide⟩

/-- C2 (counterexample): on `{a: 1}`, `set("a/b", 5)` does not extend the
path below `a`: since the new value `5` is not a mapping, it directly
replaces the Leaf at `a` (root becomes `{a: 5}`), `get("a/b")` raises
`TypeError` rather than returning `5`, and `get("a")` is still the Leaf `5`,
not an Interior Node. -/
theorem c2_counterexample :
    cacheSet (Dict.cons (pys "a") (.vint 1) Dict.nil) (pys "a/b") (.vint 5) =
      .ok (Dict.cons (pys "a") (.vint 5) Dict.nil) ∧
    cacheGet (Dict.cons (pys "a") (.vint 5) Dict.nil) (pys "a/b") .vnone = .error .typeError ∧
    cacheGet (Dict.cons (pys "a") (.vint 5) Dict.nil) (pys "a/b") .vnone ≠ .ok (.vint 5) ∧
    cacheGet (Dict.cons (pys "a") (.vint 5) Dict.nil) (pys "a") .vnone = .ok (.vint 5) ∧
    isDict (.vint 5) = false :=
  ⟨by decide, by decide, by decide, by decide, by decide⟩

/-- C2 (amended): when the first path segment currently holds a non-mapping
Leaf and the new value is itself not a mapping, `set` assigns the new value
directly at that first segment and discards the remaining path segments
(the fresh sub-chain of the original claim is built only when the new value
is a mapping). -/
theorem c2_leaf_prefix_overwrite (root : Dict) (uri item : PyStr)
    (restParts : List PyStr) (w data : Value)
    (h1 : stripChar '/' uri = uri)
    (h2 : pysplit ['/'] uri = item :: restParts)
    (h3 : Dict.find? root item = some w)
    (h4 : isDict w = false)
    (h5 : isDict data = false) :
    cacheSet root uri data = .ok (Dict.set root item data) := by
  have hstop : setLoop uri (item :: restParts) data root =
      .ok (.done (Dict.set root item data)) := by
    rw [setLoop, h3]
    cases w with
    | vdict d => exact absurd h4 (by simp [isDict])
    | vstr s =>
      show setLeafOverwrite uri item data root = _
      cases data with
      | vdict d2 => exact absurd h5 (by simp [isDict])
      | vstr s2 => rfl
      | vint n2 => rfl
      | vnone => rfl
    | vint n =>
      show setLeafOverwrite uri item data root = _
      cases data with
      | vdict d2 => exact absurd h5 (by simp [isDict])
      | vstr s2 => rfl
      | vint n2 => rfl
      | vnone => rfl
    | vnone =>
      show setLeafOverwrite uri item data root = _
      cases data with
      | vdict d2 => exact absurd h5 (by simp [isDict])
      | vstr s2 => rfl
      | vint n2 => rfl
      | vnone => rfl
  rw [cacheSet_eq, h1, h2, hstop]
  rfl

/-- C2 witness: the amended theorem applied at the tree `{a: 1}` with
`set("a/b", 5)`. -/
theorem c2_leaf_prefix_overwrite_witness :
    (stripChar '/' (pys "a/b") = pys "a/b" ∧
     pysplit ['/'] (pys "a/b") = [pys "a", pys "b"] ∧
     Dict.find? (Dict.cons (pys "a") (.vint 1) Dict.nil) (pys "a") = some (.vint 1) ∧
     isDict (.vint 1) = false ∧ isDict (.vint 5) = false) ∧
    cacheSet (Dict.cons (pys "a") (.vint 1) Dict.nil) (pys "a/b") (.vint 5) =
      .ok (Dict.set (Dict.cons (pys "a") (.vint 1) Dict.nil) (pys "a") (.vint 5)) :=
  ⟨⟨by decide, by decide, by decide, by decide, by decide⟩,
    c2_leaf_prefix_overwrite (Dict.cons (pys "a") (.vint 1) Dict.nil) (pys "a/b")
      (pys "a") [pys "b"] (.vint 1) (.vint 5)
      (by decide) (by decide) (by decide) (by decide) (by decide)⟩

/-- C4 (counterexample): `get` is not total: on `{a: 1}`, `get("a/b")`
raises `TypeError` (membership test on the int Leaf) instead of returning
the default. -/
theorem c4_counterexample :
    cacheGet (Dict.cons (pys "a") (.vint 1) Dict.nil) (pys "a/b") .vnone =
      .error .typeError ∧
    cacheGet (Dict.cons (pys "a") (.vint 1) Dict.nil) (pys "a/b") .vnone ≠ .ok .vnone :=
  ⟨by decide, by decide⟩

/-- C4 (amended): for a non-empty path whose descent only enters Interior
Nodes, `get(path, default)` never fails: it returns the default as soon as
a segment is absent at an Interior Node, and otherwise the Node found at
full resolution (the spec-side `specResolve`). -/
theorem c4_get_total_on_dicts (root : Dict) (uri : PyStr) (default : Value)
    (h1 : uri ≠ []) (h2 : dictDescent (.vdict root) (pysplit ['/'] uri) = true) :
    cacheGet root uri default =
      .ok (specResolve default (.vdict root) (pysplit ['/'] uri)) := by
  rw [cacheGet, if_neg h1]
  rw [getWalkF_eq_getSegs default (uri.length + 1) uri (.vdict root) (by omega)]
  exact getSegs_specResolve default (pysplit ['/'] uri) (.vdict root) (pysplit_ne_nil _ _) h2

/-- C4 witness: the amended theorem applied on `{a: {b: 1}}` at `"a/b"`
(full resolution) — all hypotheses hold there. -/
theorem c4_get_total_on_dicts_witness :
    ((pys "a/b" : PyStr) ≠ [] ∧
     dictDescent (.vdict (Dict.cons (pys "a")
       (.vdict (Dict.cons (pys "b") (.vint 1) Dict.nil)) Dict.nil))
       (pysplit ['/'] (pys "a/b")) = true) ∧
    cacheGet (Dict.cons (pys "a") (.vdict (Dict.cons (pys "b") (.vint 1) Dict.nil)) Dict.nil)
        (pys "a/b") .vnone =
      .ok (specResolve .vnone
        (.vdict (Dict.cons (pys "a") (.vdict (Dict.cons (pys "b") (.vint 1) Dict.nil)) Dict.nil))
        (pysplit ['/'] (pys "a/b"))) :=
  ⟨⟨by decide, by decide⟩,
    c4_get_total_on_dicts
      (Dict.cons (pys "a") (.vdict (Dict.cons (pys "b") (.vint 1) Dict.nil)) Dict.nil)
      (pys "a/b") .vnone (by decide) (by decide)⟩

/-- C6: `merge` recursively merges the other root into this root: for each
key of the other tree, if the key exists in both and both values are
Interior Nodes, the merge recurses into them; otherwise the other tree's
value overwrites this tree's value with no further recursion.  On trees
with disjoint top-level keys, the merge is the union, both sides' nested
structure kept intact. -/
theorem c6_merge (d1 d2 : Dict) (hnd : (Dict.keys d2).Nodup) :
    (∀ k, Dict.find? (cacheMerge d1 d2) k =
      (match Dict.find? d1 k, Dict.find? d2 k with
       | some (.vdict s1), some (.vdict s2) => some (.vdict (cacheMerge s1 s2))
       | _, some v => some v
       | o, none => o)) ∧
    ((∀ k, k ∈ Dict.keys d1 → k ∉ Dict.keys d2) →
      cacheMerge d1 d2 = Dict.append d1 d2) := by
  constructor
  · intro k
    rw [cacheMerge, recursiveUpdate_find? d2 hnd d1 k]
    cases hf2 : Dict.find? d2 k with
    | none =>
      cases hd1 : Dict.find? d1 k with
      | none => rfl
      | some w => cases w <;> rfl
    | some v =>
      cases hf1 : Dict.find? d1 k with
      | none => cases v <;> rfl
      | some w => cases w <;> cases v <;> rfl
  · intro hdisj
    rw [cacheMerge]
    exact recursiveUpdate_disjoint d2 hnd d1 hdisj

/-- C6 witness: the theorem applied to `{a: {x: 1}}` and `{b: {y: 2}}`,
whose top-level keys are disjoint; their merge is the two-entry union. -/
theorem c6_merge_witness :
    ((Dict.keys (Dict.cons (pys "b")
        (.vdict (Dict.cons (pys "y") (.vint 2) Dict.nil)) Dict.nil)).Nodup ∧
     (∀ k, k ∈ Dict.keys (Dict.cons (pys "a")
        (.vdict (Dict.cons (pys "x") (.vint 1) Dict.nil)) Dict.nil) →
        k ∉ Dict.keys (Dict.cons (pys "b")
          (.vdict (Dict.cons (pys "y") (.vint 2) Dict.nil)) Dict.nil))) ∧
    cacheMerge
        (Dict.cons (pys "a") (.vdict (Dict.cons (pys "x") (.vint 1) Dict.nil)) Dict.nil)
        (Dict.cons (pys "b") (.vdict (Dict.cons (pys "y") (.vint 2) Dict.nil)) Dict.nil) =
      Dict.append
        (Dict.cons (pys "a") (.vdict (Dict.cons (pys "x") (.vint 1) Dict.nil)) Dict.nil)
        (Dict.cons (pys "b") (.vdict (Dict.cons (pys "y") (.vint 2) Dict.nil)) Dict.nil) :=
  ⟨⟨by decide, by decide⟩,
    (c6_merge
      (Dict.cons (pys "a") (.vdict (Dict.cons (pys "x") (.vint 1) Dict.nil)) Dict.nil)
      (Dict.cons (pys "b") (.vdict (Dict.cons (pys "y") (.vint 2) Dict.nil)) Dict.nil)
      (by decide)).2 (by decide)⟩

/-- C7 (counterexample): `copy` feeds the root back through the constructor,
so a root whose first key contains `/` is re-parsed as a path/value pair.
Build `{c: 2, "a/b": 1}` (first key without a slash, taken as the root as
is), `remove("c")` (leaving `{"a/b": 1}`), then `copy`: the copy is
`{a: {b: 1}}`, not equal (Python `==` or structurally) to the original. -/
theorem c7_counterexample :
    cacheInit (Dict.cons (pys "c") (.vint 2)
        (Dict.cons (pys "a/b") (.vint 1) Dict.nil)) =
      .ok (Dict.cons (pys "c") (.vint 2) (Dict.cons (pys "a/b") (.vint 1) Dict.nil)) ∧
    cacheRemove (Dict.cons (pys "c") (.vint 2)
        (Dict.cons (pys "a/b") (.vint 1) Dict.nil)) (pys "c") =
      .ok (Dict.cons (pys "a/b") (.vint 1) Dict.nil) ∧
    cacheCopy (Dict.cons (pys "a/b") (.vint 1) Dict.nil) =
      .ok (Dict.cons (pys "a") (.vdict (Dict.cons (pys "b") (.vint 1) Dict.nil)) Dict.nil) ∧
    pyEq (.vdict (Dict.cons (pys "a") (.vdict (Dict.cons (pys "b") (.vint 1) Dict.nil)) Dict.nil))
      (.vdict (Dict.cons (pys "a/b") (.vint 1) Dict.nil)) = false ∧
    Dict.cons (pys "a") (.vdict (Dict.cons (pys "b") (.vint 1) Dict.nil)) Dict.nil ≠
      Dict.cons (pys "a/b") (.vint 1) Dict.nil :=
  ⟨by decide, by decide, by decide, by decide, by decide⟩

/-- C7 (amended): `copy()` returns a tree identical to the original (hence
Python-equal, and trivially independent in this pure model of `deepcopy`)
whenever the root is empty or its first top-level key contains no `/`. -/
theorem c7_copy_id (root : Dict)
    (h : root = Dict.nil ∨ ∃ k v rest, root = Dict.cons k v rest ∧ '/' ∉ k) :
    cacheCopy root = .ok root := by
  cases h with
  | inl h => subst h; rfl
  | inr h =>
    obtain ⟨k, v, rest, rfl, hk⟩ := h
    rw [cacheCopy, cacheInit]
    have hc : (k.contains '/') = false := by
      simpa using hk
    rw [hc]
    simp

/-- C7 witness: the amended theorem applied to `{x: 1}`. -/
theorem c7_copy_id_witness :
    (Dict.cons (pys "x") (.vint 1) Dict.nil = Dict.nil ∨
     ∃ k v rest, Dict.cons (pys "x") (.vint 1) Dict.nil = Dict.cons k v rest ∧ '/' ∉ k) ∧
    cacheCopy (Dict.cons (pys "x") (.vint 1) Dict.nil) =
      .ok (Dict.cons (pys "x") (.vint 1) Dict.nil) :=
  ⟨Or.inr ⟨pys "x", .vint 1, Dict.nil, rfl, by decide⟩,
    c7_copy_id (Dict.cons (pys "x") (.vint 1) Dict.nil)
      (Or.inr ⟨pys "x", .vint 1, Dict.nil, rfl, by decide⟩)⟩

/-- C8 (counterexample): `get_nodes` on a missing path does not return an
empty result: `get` yields the default `None`, which has no `.items()`, so
the call fails with `AttributeError`. -/
theorem c8_counterexample :
    cacheGetNodes (Dict.cons (pys "a") (.vdict Dict.nil) Dict.nil) (pys "b") =
      .error .attributeError ∧
    cacheGetNodes (Dict.cons (pys "a") (.vdict Dict.nil) Dict.nil) (pys "b") ≠
      .ok Dict.nil :=
  ⟨by decide, by decide⟩

/-- C8 (amended): `get_nodes(path)` returns exactly the immediate children
of the resolved node that are Interior Nodes when the path resolves to an
Interior Node; it fails with an error both when the path resolves to a Leaf
and when the path is missing (where `get` returns the non-mapping default
`None`). -/
theorem c8_get_nodes (root : Dict) (uri : PyStr) :
    (∀ d, cacheGet root uri .vnone = .ok (.vdict d) →
      cacheGetNodes root uri = .ok (dictOnly d)) ∧
    (∀ d k, (Dict.keys d).Nodup →
      Dict.find? (dictOnly d) k =
        (match Dict.find? d k with
         | some (.vdict s) => some (.vdict s)
         | _ => none)) ∧
    (∀ v, cacheGet root uri .vnone = .ok v → isDict v = false →
      cacheGetNodes root uri = .error .attributeError) := by
  refine ⟨?_, ?_, ?_⟩
  · intro d h
    rw [cacheGetNodes, h]
    rfl
  · intro d k hnd
    exact dictOnly_find? d hnd k
  · intro v h hv
    rw [cacheGetNodes, h]
    cases v with
    | vdict d => exact absurd hv (by simp [isDict])
    | vstr s => rfl
    | vint n => rfl
    | vnone => rfl

/-- C8 witness: the amended theorem applied on `{a: {b: {}, c: 1}}`: at
`"a"` (resolves to an Interior Node) `get_nodes` keeps only the dict-valued
child `b`; at `"zz"` (missing) `get` returns `None` and `get_nodes` errors. -/
theorem c8_get_nodes_witness :
    (cacheGet (Dict.cons (pys "a") (.vdict (Dict.cons (pys "b") (.vdict Dict.nil)
        (Dict.cons (pys "c") (.vint 1) Dict.nil))) Dict.nil) (pys "a") .vnone =
      .ok (.vdict (Dict.cons (pys "b") (.vdict Dict.nil)
        (Dict.cons (pys "c") (.vint 1) Dict.nil))) ∧
     cacheGetNodes (Dict.cons (pys "a") (.vdict (Dict.cons (pys "b") (.vdict Dict.nil)
        (Dict.cons (pys "c") (.vint 1) Dict.nil))) Dict.nil) (pys "a") =
      .ok (dictOnly (Dict.cons (pys "b") (.vdict Dict.nil)
        (Dict.cons (pys "c") (.vint 1) Dict.nil)))) ∧
    (cacheGet (Dict.cons (pys "a") (.vdict (Dict.cons (pys "b") (.vdict Dict.nil)
        (Dict.cons (pys "c") (.vint 1) Dict.nil))) Dict.nil) (pys "zz") .vnone =
      .ok .vnone ∧
     cacheGetNodes (Dict.cons (pys "a") (.vdict (Dict.cons (pys "b") (.vdict Dict.nil)
        (Dict.cons (pys "c") (.vint 1) Dict.nil))) Dict.nil) (pys "zz") =
      .error .attributeError) :=
  ⟨⟨by decide,
    (c8_get_nodes (Dict.cons (pys "a") (.vdict (Dict.cons (pys "b") (.vdict Dict.nil)
      (Dict.cons (pys "c") (.vint 1) Dict.nil))) Dict.nil) (pys "a")).1
      (Dict.cons (pys "b") (.vdict Dict.nil) (Dict.cons (pys "c") (.vint 1) Dict.nil))
      (by decide)⟩,
   ⟨by decide,
    (c8_get_nodes (Dict.cons (pys "a") (.vdict (Dict.cons (pys "b") (.vdict Dict.nil)
      (Dict.cons (pys "c") (.vint 1) Dict.nil))) Dict.nil) (pys "zz")).2.2
      .vnone (by decide) (by decide)⟩⟩

/-- C10 (counterexample): on `{a: "abc"}`, the membership test of
`exists("a/b")` is indeed substring containment (`"b" in "abc"` is true),
but `exists` then indexes the string with the string key and raises
`TypeError` — it does not return true. -/
theorem c10_counterexample :
    isSubstr (pys "b") (pys "abc") = true ∧
    cacheExists (Dict.cons (pys "a") (.vstr (pys "abc")) Dict.nil) (pys "a/b") =
      .error .typeError ∧
    cacheExists (Dict.cons (pys "a") (.vstr (pys "abc")) Dict.nil) (pys "a/b") ≠
      .ok true :=
  ⟨by decide, by decide, by decide⟩

/-- C10 (amended): when the descent of `exists` reaches a string-valued
Leaf with segments remaining, the membership test applied is substring
containment on that string; a non-contained segment makes `exists` return
false, while a contained segment makes `exists` raise `TypeError` when it
then indexes the string with the string key — it never returns true through
a string Leaf. -/
theorem c10_string_membership (s key : PyStr) (rest : List PyStr) :
    existsLoop (key :: rest) (.vstr s) =
      (if isSubstr key s then .error .typeError else .ok false) := by
  rw [existsLoop]
  by_cases h : isSubstr key s
  · simp [pyContains, h, pyIndex]
  · simp [pyContains, h]

/-- C1 (amended): for a multi-segment path of two or more non-empty,
slash-free segments whose FIRST segment occurs in the path only as its
leading occurrence (so that Python's `uri.split(first)` leaves exactly
`'/' + rest` as the last piece — the extra proviso the counterexample
`"a/ab"` forces), `set(P, V)` on an empty tree builds the nested chain
`nestD`; then `get(P) = V`, `exists` holds for `P` and every non-empty
prefix of its segments, and `get` of the first segment returns the Interior
Node chain containing the second segment as a key. -/
theorem c1_multiseg_paths (s1 s2 : PyStr) (rest : List PyStr) (V : Value)
    (hgood : ∀ x ∈ s1 :: s2 :: rest, x ≠ [] ∧ '/' ∉ x)
    (hsplit : (pysplit s1 (joinSegs (s1 :: s2 :: rest))).getLastD [] =
      '/' :: joinSegs (s2 :: rest)) :
    cacheSet Dict.nil (joinSegs (s1 :: s2 :: rest)) V =
      .ok (nestD (s1 :: s2 :: rest) V) ∧
    cacheGet (nestD (s1 :: s2 :: rest) V) (joinSegs (s1 :: s2 :: rest)) .vnone = .ok V ∧
    (∀ i, 1 ≤ i → i ≤ (s1 :: s2 :: rest).length →
      cacheExists (nestD (s1 :: s2 :: rest) V) (joinSegs ((s1 :: s2 :: rest).take i)) =
        .ok true) ∧
    cacheGet (nestD (s1 :: s2 :: rest) V) s1 .vnone =
      .ok (.vdict (nestD (s2 :: rest) V)) ∧
    Dict.contains (nestD (s2 :: rest) V) s2 = true := by
  have hne : (s1 :: s2 :: rest : List PyStr) ≠ [] := by simp
  have hne2 : (s2 :: rest : List PyStr) ≠ [] := by simp
  have hgood2 : ∀ x ∈ s2 :: rest, x ≠ [] ∧ '/' ∉ x :=
    fun x hx => hgood x (List.mem_cons_of_mem s1 hx)
  have hstrip : stripChar '/' (joinSegs (s1 :: s2 :: rest)) = joinSegs (s1 :: s2 :: rest) :=
    stripChar_joinSegs hne hgood
  have hps : pysplit ['/'] (joinSegs (s1 :: s2 :: rest)) = s1 :: s2 :: rest :=
    pysplit_joinSegs hne hgood
  have hs1 := hgood s1 (by simp)
  have hnest : uri2dict (joinSegs (s2 :: rest)) V = nestD (s2 :: rest) V :=
    uri2dict_eq_nestD (pysplit_joinSegs hne2 hgood2) hne2 V
  have hstripT : stripChar '/' ('/' :: joinSegs (s2 :: rest)) = joinSegs (s2 :: rest) :=
    stripChar_slash_cons hne2 hgood2
  have hloop : setLoop (joinSegs (s1 :: s2 :: rest)) (s1 :: s2 :: rest) V Dict.nil =
      .ok (.done (nestD (s1 :: s2 :: rest) V)) := by
    rw [setLoop, Dict.find?_nil]
    show (if s1 = [] then Except.error PyErr.valueError
      else if (pysplit s1 (joinSegs (s1 :: s2 :: rest))).getLastD [] = [] then
        Except.ok (SetOut.done (Dict.set Dict.nil s1 V))
      else Except.ok (SetOut.done (Dict.set Dict.nil s1
        (.vdict (uri2dict
          (stripChar '/' ((pysplit s1 (joinSegs (s1 :: s2 :: rest))).getLastD [])) V))))) = _
    rw [if_neg hs1.1, hsplit]
    rw [if_neg (by simp)]
    rw [hstripT, hnest]
    rfl
  have huri_ne : joinSegs (s1 :: s2 :: rest) ≠ [] := by
    obtain ⟨a, u, hj, _⟩ := joinSegs_head_ne hne hgood
    rw [hj]
    simp
  refine ⟨?_, ?_, ?_, ?_, ?_⟩
  · rw [cacheSet_eq, hstrip, hps, hloop]
    rfl
  · rw [cacheGet, if_neg huri_ne]
    rw [getWalkF_eq_getSegs .vnone ((joinSegs (s1 :: s2 :: rest)).length + 1)
      (joinSegs (s1 :: s2 :: rest)) (.vdict (nestD (s1 :: s2 :: rest) V)) (by omega)]
    rw [hps]
    exact getSegs_nestD .vnone V hne
  · intro i h1i h2i
    have htake_ne : (s1 :: s2 :: rest).take i ≠ [] := by
      cases i with
      | zero => omega
      | succ j => simp
    have hgoodt : ∀ x ∈ (s1 :: s2 :: rest).take i, x ≠ [] ∧ '/' ∉ x :=
      fun x hx => hgood x (List.take_subset i (s1 :: s2 :: rest) hx)
    rw [cacheExists, stripChar_joinSegs htake_ne hgoodt, pysplit_joinSegs htake_ne hgoodt]
    exact existsLoop_take_nestD V (s1 :: s2 :: rest) i h1i h2i
  · rw [cacheGet, if_neg hs1.1]
    rw [getWalkF_eq_getSegs .vnone (s1.length + 1) s1
      (.vdict (nestD (s1 :: s2 :: rest) V)) (by omega)]
    rw [pysplit_single hs1.2]
    rw [getSegs]
    simp only [nestD, pyContains, Dict.contains, Dict.find?, if_pos rfl,
      Option.isSome_some, exceptBind_ok, if_true, pyIndex, pyIndexD]
  · cases rest with
    | nil => simp [nestD, Dict.contains, Dict.find?]
    | cons r rs => simp [nestD, Dict.contains, Dict.find?]

/-- C1 witness: the amended theorem applied to `"a/b/c"` with value `7`
(all hypotheses hold there), so on the empty tree `set` builds
`{a: {b: {c: 7}}}` and the claimed `get`/`exists` facts follow. -/
theorem c1_multiseg_paths_witness :
    ((∀ x ∈ [pys "a", pys "b", pys "c"], x ≠ [] ∧ '/' ∉ x) ∧
     (pysplit (pys "a") (joinSegs [pys "a", pys "b", pys "c"])).getLastD [] =
       '/' :: joinSegs [pys "b", pys "c"]) ∧
    (cacheSet Dict.nil (joinSegs [pys "a", pys "b", pys "c"]) (.vint 7) =
      .ok (nestD [pys "a", pys "b", pys "c"] (.vint 7)) ∧
    cacheGet (nestD [pys "a", pys "b", pys "c"] (.vint 7))
      (joinSegs [pys "a", pys "b", pys "c"]) .vnone = .ok (.vint 7) ∧
    (∀ i, 1 ≤ i → i ≤ ([pys "a", pys "b", pys "c"] : List PyStr).length →
      cacheExists (nestD [pys "a", pys "b", pys "c"] (.vint 7))
        (joinSegs (([pys "a", pys "b", pys "c"] : List PyStr).take i)) = .ok true) ∧
    cacheGet (nestD [pys "a", pys "b", pys "c"] (.vint 7)) (pys "a") .vnone =
      .ok (.vdict (nestD [pys "b", pys "c"] (.vint 7))) ∧
    Dict.contains (nestD [pys "b", pys "c"] (.vint 7)) (pys "b") = true) :=
  ⟨⟨by decide, by decide⟩,
    c1_multiseg_paths (pys "a") (pys "b") [pys "c"] (.vint 7) (by decide) (by decide)⟩
